import Mathlib

/-!
# Verification of the mobile_secrets_vault core

Shallow embedding of `src/mobile_secrets_vault` (crypto.py, versioning.py,
vault.py) and proofs of the specification's claims about it.

Modelling conventions:
* Byte strings are `List Nat`.
* Python's `base64` module is idealized as the codec `B64`: `B64.valid bs`
  stands for the (unique) standard base64 text encoding the bytes `bs`, and
  `B64.invalid i` stands for a piece of text that is not valid base64, so that
  encoding is injective, decoding inverts encoding, and decoding fails exactly
  on invalid text — the three properties of the real library the code relies
  on.
* `AESGCM` from the `cryptography` package is idealized as a perfect AEAD:
  the ciphertext (which in GCM carries the authentication tag) determines the
  `(key, nonce, plaintext)` triple, and decryption succeeds exactly when key
  and nonce match, raising `InvalidTag` otherwise.  We realize this with an
  injective length-prefixed encoding of the triple.
* `os.urandom` nonces are modelled by a counter threaded through the vault
  state: the n-th draw is the nonce `freshNonce n`, and distinct draws give
  distinct nonces (the idealization of a collision-free random source).
* Exceptions become `Except` values.  The error *kinds* of the spec's
  taxonomy (`KeyLengthError`, `MalformedBlobError`, `AuthenticationError`)
  name the distinct `ValueError`/`InvalidTag` failures of `crypto.py`.
-/

/-- Byte strings (Python `bytes`). -/
abbrev Bytes := List Nat

/-- A text field of an encrypted blob, under the idealized base64 codec:
either the base64 text of some byte string, or text that is not valid
base64. -/
inductive B64 where
  | valid (bs : Bytes)
  | invalid (i : Nat)
deriving DecidableEq, Repr

/-- Embeds `base64.b64encode(...).decode("utf-8")`. -/
def b64encode (bs : Bytes) : B64 := B64.valid bs

/-- Embeds `base64.b64decode`: succeeds exactly on valid base64 text. -/
def b64decode : B64 → Option Bytes
  | B64.valid bs => some bs
  | B64.invalid _ => none

/-- The `Dict[str, str]` holding an encrypted secret: the `"ciphertext"` and
`"nonce"` entries may each be present or absent. -/
structure EncDict where
  ciphertext : Option B64
  nonce : Option B64
deriving DecidableEq, Repr

/-- Error kinds raised by `CryptoEngine` (`crypto.py`): the two `ValueError`
cases of `decrypt`/`encrypt` and the `InvalidTag` of AES-GCM, named with the
spec's taxonomy. -/
inductive CryptoError where
  | keyLength (got : Nat)
  | malformedBlob
  | authentication
deriving DecidableEq, Repr

/-- Embeds `CryptoEngine.KEY_SIZE` (AES-256 keys are 32 bytes). -/
def KEY_SIZE : Nat := 32

/-- Idealized `AESGCM(key).encrypt(nonce, data)`: an injective length-prefixed
encoding of `(key, nonce, data)`, standing for `ciphertext || tag`. -/
def aesgcmEncrypt (key nonce data : Bytes) : Bytes :=
  ((key.length :: key) ++ (nonce.length :: nonce)) ++ data

/-- Idealized `AESGCM(key).decrypt(nonce, data)`: the tag verifies — and the
plaintext is returned — exactly when the ciphertext was produced under this
key and nonce; `none` stands for `InvalidTag`. -/
def aesgcmDecrypt (key nonce ct : Bytes) : Option Bytes :=
  let data := ct.drop (key.length + nonce.length + 2)
  if ct = aesgcmEncrypt key nonce data then some data else none

/-- The nonce produced by the `i`-th draw from `os.urandom` in a run. -/
def freshNonce (i : Nat) : Bytes := [i]

/-- Embeds `CryptoEngine.encrypt(plaintext, key)` with its `os.urandom` draw made
explicit: `ctr` is the RNG counter, returned incremented exactly when a nonce
was sampled (the key-length check precedes the sampling in the source). -/
def CryptoEngine.encrypt (plaintext key : Bytes) (ctr : Nat) :
    Except CryptoError EncDict × Nat :=
  if key.length ≠ KEY_SIZE then
    (Except.error (CryptoError.keyLength key.length), ctr)
  else
    let nonce := freshNonce ctr
    (Except.ok
      { ciphertext := b64encode (aesgcmEncrypt key nonce plaintext)
        nonce := b64encode nonce },
     ctr + 1)

/-- Embeds `CryptoEngine.decrypt(encrypted_data, key)`: key-length check, then
presence of both fields, then base64 decoding, then AEAD open. -/
def CryptoEngine.decrypt (d : EncDict) (key : Bytes) : Except CryptoError Bytes :=
  if key.length ≠ KEY_SIZE then
    Except.error (CryptoError.keyLength key.length)
  else
    match d.ciphertext, d.nonce with
    | some c, some n =>
      match b64decode c, b64decode n with
      | some ct, some nonce =>
        match aesgcmDecrypt key nonce ct with
        | some pt => Except.ok pt
        | none => Except.error CryptoError.authentication
      | _, _ => Except.error CryptoError.malformedBlob
    | _, _ => Except.error CryptoError.malformedBlob


/-! ## versioning.py -/

/-- Version metadata, an opaque string-keyed mapping (`Dict[str, Any]`). -/
abbrev Metadata := List (String × String)

/-- Embeds `SecretVersion` (`versioning.py`): one version of a secret. -/
structure SecretVersion where
  version : Nat
  encrypted_value : EncDict
  timestamp : String
  metadata : Metadata
deriving DecidableEq, Repr

/-- The per-key record `{"versions": [...], "current_version": n}` held in
`VersionManager._secrets`. -/
structure KeyData where
  versions : List SecretVersion
  current_version : Nat
deriving DecidableEq, Repr

/-- Embeds `VersionManager._secrets`: an insertion-ordered mapping (Python `dict`)
from key name to its record, as an association list with distinct keys. -/
abbrev SecretsMap := List (String × KeyData)

/-- Embeds `self._secrets[key]` lookup (`key in self._secrets` is `isSome`). -/
def lookupKey (m : SecretsMap) (k : String) : Option KeyData :=
  (m.find? (fun p => p.1 = k)).map (fun p => p.2)

/-- Embeds `self._secrets[key] = d`: replace in place when present (Python dicts
keep the original position), append when absent. -/
def storeKey (m : SecretsMap) (k : String) (d : KeyData) : SecretsMap :=
  match m with
  | [] => [(k, d)]
  | (k', d') :: rest =>
    if k' = k then (k, d) :: rest else (k', d') :: storeKey rest k d

/-- Embeds `VersionManager.add_version(key, encrypted_value, metadata)`: returns the
new version number and the updated map.  `now` is `datetime.utcnow()`; the
constructor defaults `metadata or {}` to the empty mapping. -/
def add_version (m : SecretsMap) (key : String) (encrypted_value : EncDict)
    (metadata : Option Metadata) (now : String) : Nat × SecretsMap :=
  let m1 := if (lookupKey m key).isSome then m else storeKey m key ⟨[], 0⟩
  let d := (lookupKey m1 key).getD ⟨[], 0⟩
  let next_version := d.current_version + 1
  let v : SecretVersion :=
    ⟨next_version, encrypted_value, now, metadata.getD []⟩
  (next_version, storeKey m1 key ⟨d.versions ++ [v], next_version⟩)

/-- Embeds `VersionManager.get_version(key, version)`: `None` on an absent key or an
empty versions list; the last element when `version is None`; otherwise the
first linear-scan match. -/
def get_version (m : SecretsMap) (key : String) (version : Option Nat) :
    Option SecretVersion :=
  match lookupKey m key with
  | none => none
  | some d =>
    if d.versions = [] then none
    else
      match version with
      | none => d.versions.getLast?
      | some n => d.versions.find? (fun v => v.version = n)

/-- Embeds `VersionManager.list_versions(key)`: the `(version, timestamp, metadata)`
projections, in stored order; empty for an absent key. -/
def list_versions (m : SecretsMap) (key : String) :
    List (Nat × String × Metadata) :=
  match lookupKey m key with
  | none => []
  | some d => d.versions.map (fun v => (v.version, v.timestamp, v.metadata))

/-- Embeds `VersionManager.delete_key(key)`. -/
def delete_key (m : SecretsMap) (key : String) : Bool × SecretsMap :=
  if (lookupKey m key).isSome then
    (true, m.filter (fun p => p.1 ≠ key))
  else (false, m)

/-- Embeds `VersionManager.delete_version(key, version)`: filters the matching
version out of `versions`; `current_version` and the key entry itself are
left untouched. -/
def delete_version (m : SecretsMap) (key : String) (version : Nat) :
    Bool × SecretsMap :=
  match lookupKey m key with
  | none => (false, m)
  | some d =>
    let vs := d.versions.filter (fun v => v.version ≠ version)
    (decide (vs.length < d.versions.length), storeKey m key ⟨vs, d.current_version⟩)

/-- Embeds `VersionManager.get_all_keys()`: the keys in insertion order. -/
def get_all_keys (m : SecretsMap) : List String := m.map (fun p => p.1)

/-- One iteration of `rotate_key`'s inner loop on a version's blob: decrypt
with the old key and re-encrypt with the new; on ANY failure the blob is left
unchanged and a warning is printed (the `except` branch).  `ctr` is the RNG
counter, advanced only when `encrypt` sampled a nonce. -/
def rotateBlob (old_key new_key : Bytes) (ctr : Nat) (ev : EncDict) :
    EncDict × Nat :=
  match CryptoEngine.decrypt ev old_key with
  | Except.error _ => (ev, ctr)
  | Except.ok plaintext =>
    match CryptoEngine.encrypt plaintext new_key ctr with
    | (Except.ok new_encrypted, ctr') => (new_encrypted, ctr')
    | (Except.error _, ctr') => (ev, ctr')

/-- Embeds `rotate_key`'s inner loop over one key's versions, in order. -/
def rotateVersions (old_key new_key : Bytes) :
    Nat → List SecretVersion → List SecretVersion × Nat
  | ctr, [] => ([], ctr)
  | ctr, v :: vs =>
    let (ev', ctr1) := rotateBlob old_key new_key ctr v.encrypted_value
    let (rest, ctr2) := rotateVersions old_key new_key ctr1 vs
    (⟨v.version, ev', v.timestamp, v.metadata⟩ :: rest, ctr2)

/-- Embeds `VersionManager.rotate_key(old_key, new_key, crypto_engine)`: walks every
key in insertion order, rewriting each version's blob in place. -/
def rotate_key (old_key new_key : Bytes) :
    Nat → SecretsMap → SecretsMap × Nat
  | ctr, [] => ([], ctr)
  | ctr, (k, d) :: rest =>
    let (vs', ctr1) := rotateVersions old_key new_key ctr d.versions
    let (rest', ctr2) := rotate_key old_key new_key ctr1 rest
    ((k, ⟨vs', d.current_version⟩) :: rest', ctr2)

/-! ## The serialized document (to_dict / from_dict) -/

/-- The dictionary form of one version, as written by `SecretVersion.to_dict`
and read by `SecretVersion.from_dict`: `timestamp` and `metadata` may be
absent in an incoming dictionary (`data.get`). -/
structure VersionDict where
  version : Nat
  encrypted_value : EncDict
  timestamp : Option String
  metadata : Option Metadata
deriving DecidableEq, Repr

/-- The dictionary form of one key's record. -/
structure KeyDict where
  versions : List VersionDict
  current_version : Nat
deriving DecidableEq, Repr

/-- The on-disk `VaultDocument`: key name to record, in insertion order. -/
abbrev VaultDocument := List (String × KeyDict)

/-- Embeds `SecretVersion.to_dict`: all four fields are emitted. -/
def SecretVersion.to_dict (v : SecretVersion) : VersionDict :=
  ⟨v.version, v.encrypted_value, some v.timestamp, some v.metadata⟩

/-- Embeds `SecretVersion.from_dict(data)`: the constructor substitutes
`datetime.utcnow()` for a missing or falsy (empty) timestamp
(`timestamp or ...`) and the empty mapping for a missing metadata entry. -/
def SecretVersion.from_dict (now : String) (d : VersionDict) : SecretVersion :=
  ⟨d.version, d.encrypted_value,
   match d.timestamp with
   | some t => if t = "" then now else t
   | none => now,
   d.metadata.getD []⟩

/-- Embeds `VersionManager.to_dict()`. -/
def VersionManager.to_dict (m : SecretsMap) : VaultDocument :=
  m.map (fun p => (p.1, ⟨p.2.versions.map SecretVersion.to_dict, p.2.current_version⟩))

/-- Embeds `VersionManager.from_dict(data)`: rebuilds `_secrets` from the document. -/
def VersionManager.from_dict (now : String) (doc : VaultDocument) : SecretsMap :=
  doc.map
    (fun p => (p.1, ⟨p.2.versions.map (SecretVersion.from_dict now), p.2.current_version⟩))

/-! ## vault.py — the MobileSecretsVault facade

Storage and audit logging are filesystem side effects orthogonal to the
claims; the facade's in-memory state is the master key, the version-manager
map, and the RNG counter for nonce draws. -/

/-- The in-memory state of a `MobileSecretsVault`. -/
structure Vault where
  master_key : Bytes
  secrets : SecretsMap
  ctr : Nat
deriving DecidableEq, Repr

/-- Exceptions escaping the facade's public operations: the pass-through
kinds and the generic `VaultError` wrapper (`vault.py`). -/
inductive VaultExc where
  | secretNotFound
  | authentication
  | masterKeyNotFound
  | vaultError (inner : CryptoError)
deriving DecidableEq, Repr

/-- Embeds `MobileSecretsVault.set(key, value, metadata)`: encrypt under the live
master key, append a version; any exception is wrapped as `VaultError`. -/
def Vault.set (v : Vault) (key : String) (value : Bytes)
    (metadata : Option Metadata) (now : String) :
    Except VaultExc (Nat × Vault) :=
  match CryptoEngine.encrypt value v.master_key v.ctr with
  | (Except.error e, _) => Except.error (VaultExc.vaultError e)
  | (Except.ok encrypted, ctr') =>
    let (version, m') := add_version v.secrets key encrypted metadata now
    Except.ok (version, ⟨v.master_key, m', ctr'⟩)

/-- Embeds `MobileSecretsVault.get(key, version)`: resolve the version, decrypt.
`SecretNotFoundError` passes through; every other exception — the
`InvalidTag` of tag verification included — is wrapped as `VaultError`
(`except Exception` in `vault.py`). -/
def Vault.get (v : Vault) (key : String) (version : Option Nat) :
    Except VaultExc Bytes :=
  match get_version v.secrets key version with
  | none => Except.error VaultExc.secretNotFound
  | some sv =>
    match CryptoEngine.decrypt sv.encrypted_value v.master_key with
    | Except.ok plaintext => Except.ok plaintext
    | Except.error e => Except.error (VaultExc.vaultError e)

/-- Embeds `MobileSecretsVault.rotate(new_key)` with an explicit new key:
`rotate_key` swallows every per-version failure, so rotation itself never
raises; afterwards the live master key is replaced. -/
def Vault.rotate (v : Vault) (new_key : Bytes) : Vault :=
  let (m', ctr') := rotate_key v.master_key new_key v.ctr v.secrets
  ⟨new_key, m', ctr'⟩

/-- Embeds `MobileSecretsVault.list_keys()`. -/
def Vault.list_keys (v : Vault) : List String := get_all_keys v.secrets

/-- A vault freshly constructed with master key `k` and no stored secrets. -/
def Vault.fresh (k : Bytes) : Vault := ⟨k, [], 0⟩

/-! ## Concrete material for witnesses and counterexamples -/

/-- The blob `CryptoEngine.encrypt` produces for plaintext `pt` under `key`
when the RNG counter stands at `ctr`. -/
def encBlob (key : Bytes) (ctr : Nat) (pt : Bytes) : EncDict :=
  ⟨some (B64.valid (aesgcmEncrypt key (freshNonce ctr) pt)),
   some (B64.valid (freshNonce ctr))⟩

/-- A 32-byte key of zeros, used as a concrete master key. -/
def key32 : Bytes := List.replicate 32 0

/-- A second, distinct 32-byte key, used as a concrete rotated key. -/
def key32b : Bytes := List.replicate 32 1

/-- A vault whose live master key (`key32b`) differs from the key (`key32`)
its single stored secret was encrypted under: any `get` hits AEAD tag
failure. -/
def mismatchedVault : Vault :=
  ⟨key32b, [("s", ⟨[⟨1, encBlob key32 0 [5], "t", []⟩], 1⟩)], 1⟩

/-- A vault holding one key `"a"` with two versions: version 1 carries a blob
whose ciphertext is not valid base64 (so it cannot be decrypted by any key),
version 2 a blob encrypted under the live master key `key32`. -/
def halfRotten : Vault :=
  ⟨key32,
   [("a", ⟨[⟨1, ⟨some (B64.invalid 3), some (B64.valid [0])⟩, "t1", []⟩,
            ⟨2, encBlob key32 1 [9], "t2", []⟩], 2⟩)],
   7⟩

/-! ## Specification predicates used in theorem statements -/

/-- A valid on-disk `VaultDocument` in the sense of the data model: every
version dictionary carries a (non-empty, ISO-8601) timestamp and a metadata
mapping.  Only these two fields matter for the round-trip claim, because
`SecretVersion.from_dict` substitutes defaults exactly for a missing or
empty timestamp and a missing metadata entry. -/
def ValidDoc (doc : VaultDocument) : Prop :=
  ∀ p ∈ doc, ∀ vd ∈ p.2.versions,
    vd.timestamp ≠ none ∧ vd.timestamp ≠ some "" ∧ vd.metadata ≠ none

/-- Every version stored in the map decrypts under the master key `K`. -/
def DecryptsAll (K : Bytes) (m : SecretsMap) : Prop :=
  ∀ p ∈ m, ∀ sv ∈ p.2.versions,
    ∃ pt, CryptoEngine.decrypt sv.encrypted_value K = Except.ok pt

/-- Every nonce stored in the map came from an RNG draw strictly before the
counter `ctr` — the well-formedness every real run maintains, and the
idealization of nonce freshness of `os.urandom`. -/
def NoncesBefore (ctr : Nat) (m : SecretsMap) : Prop :=
  ∀ p ∈ m, ∀ sv ∈ p.2.versions, ∀ n,
    sv.encrypted_value.nonce = some (B64.valid n) →
      ∃ i, i < ctr ∧ n = freshNonce i

/-- Relation between a stored version and its rotated counterpart: version
number, timestamp and metadata survive; the plaintext is preserved, now
under the new key; ciphertext and nonce are both fresh. -/
def RotatedVersion (K Kn : Bytes) (sv sv' : SecretVersion) : Prop :=
  sv'.version = sv.version ∧ sv'.timestamp = sv.timestamp ∧
  sv'.metadata = sv.metadata ∧
  (∃ pt, CryptoEngine.decrypt sv.encrypted_value K = Except.ok pt ∧
    CryptoEngine.decrypt sv'.encrypted_value Kn = Except.ok pt) ∧
  sv'.encrypted_value.ciphertext ≠ sv.encrypted_value.ciphertext ∧
  sv'.encrypted_value.nonce ≠ sv.encrypted_value.nonce

/-- Relation between a map entry and its rotated counterpart: the key name
and `current_version` survive and the versions lists correspond pointwise
by `RotatedVersion`. -/
def RotatedKey (K Kn : Bytes) (p q : String × KeyData) : Prop :=
  q.1 = p.1 ∧ q.2.current_version = p.2.current_version ∧
  List.Forall₂ (RotatedVersion K Kn) p.2.versions q.2.versions

/-! ## Helper lemmas -/

/-- Dropping the two length-prefixed headers of an idealized GCM ciphertext
leaves the plaintext. -/
theorem drop_aesgcmEncrypt (key nonce data : Bytes) :
    (aesgcmEncrypt key nonce data).drop (key.length + nonce.length + 2) = data := by
  unfold aesgcmEncrypt
  have hlen : ((key.length :: key) ++ (nonce.length :: nonce)).length
      = key.length + nonce.length + 2 := by
    simp [List.length_append]
    omega
  rw [← hlen, List.drop_left]

/-- The AEAD round trip: decrypting an idealized GCM ciphertext with the key
and nonce it was produced under recovers the plaintext. -/
theorem aesgcmDecrypt_encrypt (key nonce data : Bytes) :
    aesgcmDecrypt key nonce (aesgcmEncrypt key nonce data) = some data := by
  unfold aesgcmDecrypt
  rw [drop_aesgcmEncrypt, if_pos rfl]

/-- The idealized AEAD encoding is injective in all three components. -/
theorem aesgcmEncrypt_inj {k1 n1 p1 k2 n2 p2 : Bytes}
    (h : aesgcmEncrypt k1 n1 p1 = aesgcmEncrypt k2 n2 p2) :
    k1 = k2 ∧ n1 = n2 ∧ p1 = p2 := by
  unfold aesgcmEncrypt at h
  rw [List.append_assoc, List.append_assoc] at h
  have hl : (k1.length :: k1).length = (k2.length :: k2).length := by
    have := congrArg (fun l => l.headI) h
    simp at this
    simp [this]
  obtain ⟨hk, htl⟩ := List.append_inj h hl
  have hk' : k1 = k2 := (List.cons.inj hk).2
  rw [List.cons_append, List.cons_append] at htl
  obtain ⟨hnl, htl2⟩ := List.cons.inj htl
  obtain ⟨hn, hp⟩ := List.append_inj htl2 hnl
  exact ⟨hk', hn, hp⟩

/-- A successful idealized AEAD open determines the ciphertext: it must have
been produced by encrypting the recovered plaintext under that key and
nonce. -/
theorem aesgcmDecrypt_inv {key nonce ct pt : Bytes}
    (h : aesgcmDecrypt key nonce ct = some pt) :
    ct = aesgcmEncrypt key nonce pt := by
  simp only [aesgcmDecrypt] at h
  by_cases hc : ct = aesgcmEncrypt key nonce (ct.drop (key.length + nonce.length + 2))
  · rw [if_pos hc] at h
    rw [← Option.some.inj h]
    exact hc
  · rw [if_neg hc] at h
    cases h

/-- Encryption under a 32-byte key succeeds, consumes one nonce draw, and the
result decrypts back to the plaintext under the same key. -/
theorem encrypt_ok_decrypt (plaintext key : Bytes) (ctr : Nat)
    (hk : key.length = KEY_SIZE) :
    CryptoEngine.encrypt plaintext key ctr =
      (Except.ok
        ⟨some (B64.valid (aesgcmEncrypt key (freshNonce ctr) plaintext)),
         some (B64.valid (freshNonce ctr))⟩, ctr + 1) ∧
    CryptoEngine.decrypt
      ⟨some (B64.valid (aesgcmEncrypt key (freshNonce ctr) plaintext)),
       some (B64.valid (freshNonce ctr))⟩ key = Except.ok plaintext := by
  constructor
  · unfold CryptoEngine.encrypt
    rw [if_neg (by simp [hk])]
    rfl
  · unfold CryptoEngine.decrypt
    rw [if_neg (by simp [hk])]
    simp only [b64decode]
    rw [aesgcmDecrypt_encrypt]

/-- A successful decryption determines the blob completely: the key has
length 32 and the blob is exactly an encryption of the recovered plaintext
under that key with some nonce. -/
theorem decrypt_ok_inv {ev : EncDict} {key pt : Bytes}
    (h : CryptoEngine.decrypt ev key = Except.ok pt) :
    key.length = KEY_SIZE ∧
    ∃ n0, ev = ⟨some (B64.valid (aesgcmEncrypt key n0 pt)),
                some (B64.valid n0)⟩ := by
  unfold CryptoEngine.decrypt at h
  by_cases hk : key.length ≠ KEY_SIZE
  · rw [if_pos hk] at h; cases h
  · rw [if_neg hk] at h
    refine ⟨by omega, ?_⟩
    match hev : ev with
    | ⟨some (B64.valid ct), some (B64.valid n0)⟩ =>
      simp only [b64decode] at h
      cases hdec : aesgcmDecrypt key n0 ct with
      | none => rw [hdec] at h; cases h
      | some pt' =>
        rw [hdec] at h
        have : pt' = pt := Except.ok.inj h
        subst this
        exact ⟨n0, by rw [aesgcmDecrypt_inv hdec]⟩
    | ⟨some (B64.valid ct), some (B64.invalid j)⟩ => simp [b64decode] at h
    | ⟨some (B64.invalid i), some nn⟩ => cases nn <;> simp [b64decode] at h
    | ⟨some (B64.valid ct), none⟩ => simp at h
    | ⟨some (B64.invalid i), none⟩ => simp at h
    | ⟨none, nn⟩ => simp at h

/-! ## Claims about crypto.py -/

/-- C8: for every plaintext `v` and every 32-byte key `K`, whatever nonce the
RNG supplies, `encrypt(v, K)` succeeds and `decrypt` of its result under the
same `K` returns exactly `v`. -/
theorem C8_encrypt_decrypt_roundtrip (v K : Bytes) (ctr : Nat)
    (hK : K.length = KEY_SIZE) :
    ∃ blob : EncDict,
      (CryptoEngine.encrypt v K ctr).1 = Except.ok blob ∧
      CryptoEngine.decrypt blob K = Except.ok v := by
  obtain ⟨henc, hdec⟩ := encrypt_ok_decrypt v K ctr hK
  exact ⟨_, by rw [henc], hdec⟩

/-- Witness for C8 at the concrete plaintext `[1, 2, 3]` and the all-zero
32-byte key. -/
theorem C8_witness :
    key32.length = KEY_SIZE ∧
    ∃ blob : EncDict,
      (CryptoEngine.encrypt [1, 2, 3] key32 0).1 = Except.ok blob ∧
      CryptoEngine.decrypt blob key32 = Except.ok [1, 2, 3] :=
  ⟨by decide, C8_encrypt_decrypt_roundtrip [1, 2, 3] key32 0 (by decide)⟩

/-- C9 as stated is false: `decrypt` checks the key length before the blob
fields, so a wrong-length key together with a blob missing both fields fails
with the `KeyLengthError` kind, not the `MalformedBlobError` kind the claim
demands for every field-missing blob. -/
theorem C9_counterexample :
    CryptoEngine.decrypt ⟨none, none⟩ [] = Except.error (CryptoError.keyLength 0) ∧
    CryptoEngine.decrypt ⟨none, none⟩ [] ≠ Except.error CryptoError.malformedBlob := by
  constructor
  · rfl
  · intro h
    rw [show CryptoEngine.decrypt ⟨none, none⟩ [] =
        Except.error (CryptoError.keyLength 0) from rfl] at h
    exact absurd (Except.error.inj h) (by decide)

/-- C9 (amended): a key whose length is not 32 bytes always fails with the
`KeyLengthError` kind; under a 32-byte key, a blob with a missing ciphertext
or nonce field, or one whose present fields are not valid base64, fails with
the `MalformedBlobError` kind. -/
theorem C9_amended_error_kinds :
    (∀ (d : EncDict) (K : Bytes), K.length ≠ KEY_SIZE →
        CryptoEngine.decrypt d K = Except.error (CryptoError.keyLength K.length)) ∧
    (∀ (d : EncDict) (K : Bytes), K.length = KEY_SIZE →
        (d.ciphertext = none ∨ d.nonce = none) →
        CryptoEngine.decrypt d K = Except.error CryptoError.malformedBlob) ∧
    (∀ (c n : B64) (K : Bytes), K.length = KEY_SIZE →
        (b64decode c = none ∨ b64decode n = none) →
        CryptoEngine.decrypt ⟨some c, some n⟩ K =
          Except.error CryptoError.malformedBlob) := by
  refine ⟨?_, ?_, ?_⟩
  · intro d K hK
    unfold CryptoEngine.decrypt
    rw [if_pos hK]
  · intro d K hK hmiss
    unfold CryptoEngine.decrypt
    rw [if_neg (by simp [hK])]
    match d, hmiss with
    | ⟨none, _⟩, _ => rfl
    | ⟨some c, none⟩, _ => rfl
    | ⟨some c, some n⟩, hmiss => simp at hmiss
  · intro c n K hK hbad
    unfold CryptoEngine.decrypt
    rw [if_neg (by simp [hK])]
    match c, n, hbad with
    | B64.invalid i, n, _ => cases n <;> rfl
    | B64.valid bs, B64.invalid j, _ => rfl
    | B64.valid bs, B64.valid bs2, hbad => simp [b64decode] at hbad

/-- Witness for the amended C9 at concrete inputs: the empty key, a blob
with a missing ciphertext, and a blob whose nonce is invalid base64. -/
theorem C9_amended_witness :
    CryptoEngine.decrypt ⟨some (B64.valid [1]), some (B64.valid [2])⟩ [5] =
      Except.error (CryptoError.keyLength 1) ∧
    CryptoEngine.decrypt ⟨none, some (B64.valid [2])⟩ key32 =
      Except.error CryptoError.malformedBlob ∧
    CryptoEngine.decrypt ⟨some (B64.valid [1]), some (B64.invalid 0)⟩ key32 =
      Except.error CryptoError.malformedBlob :=
  ⟨C9_amended_error_kinds.1 _ [5] (by decide),
   C9_amended_error_kinds.2.1 ⟨none, some (B64.valid [2])⟩ key32 (by decide)
     (Or.inl rfl),
   C9_amended_error_kinds.2.2 (B64.valid [1]) (B64.invalid 0) key32 (by decide)
     (Or.inr rfl)⟩

/-! ## Association-list lemmas for the secrets map -/

/-- Encryption under a 32-byte key succeeds with the `encBlob` result,
consuming one nonce draw. -/
theorem encrypt_eq (pt key : Bytes) (ctr : Nat) (hK : key.length = KEY_SIZE) :
    CryptoEngine.encrypt pt key ctr = (Except.ok (encBlob key ctr pt), ctr + 1) :=
  (encrypt_ok_decrypt pt key ctr hK).1

/-- Decrypting an `encBlob` under its own key recovers the plaintext. -/
theorem decrypt_encBlob (pt key : Bytes) (ctr : Nat) (hK : key.length = KEY_SIZE) :
    CryptoEngine.decrypt (encBlob key ctr pt) key = Except.ok pt :=
  (encrypt_ok_decrypt pt key ctr hK).2

/-- Looking a key up in a one-step-extended map. -/
theorem lookupKey_cons (k' : String) (d' : KeyData) (m : SecretsMap) (k : String) :
    lookupKey ((k', d') :: m) k = if k' = k then some d' else lookupKey m k := by
  by_cases h : k' = k <;> simp [lookupKey, List.find?_cons, h]

/-- Storing a key makes it retrievable with the stored record. -/
theorem lookup_storeKey_self (m : SecretsMap) (k : String) (d : KeyData) :
    lookupKey (storeKey m k d) k = some d := by
  induction m with
  | nil => simp [storeKey, lookupKey_cons, lookupKey]
  | cons p rest ih =>
    obtain ⟨k', d'⟩ := p
    by_cases h : k' = k
    · simp [storeKey, h, lookupKey_cons]
    · simp [storeKey, h, lookupKey_cons, ih]

/-- Storing a key leaves every other key's record unchanged. -/
theorem lookup_storeKey_ne (m : SecretsMap) (k k' : String) (d : KeyData)
    (h : k' ≠ k) : lookupKey (storeKey m k d) k' = lookupKey m k' := by
  induction m with
  | nil =>
    rw [show storeKey [] k d = [(k, d)] from rfl, lookupKey_cons,
      if_neg (Ne.symm h)]
  | cons p rest ih =>
    obtain ⟨k0, d0⟩ := p
    by_cases h0 : k0 = k
    · subst h0
      rw [show storeKey ((k0, d0) :: rest) k0 d = (k0, d) :: rest by
          simp [storeKey]]
      rw [lookupKey_cons, lookupKey_cons, if_neg (Ne.symm h), if_neg (Ne.symm h)]
    · rw [show storeKey ((k0, d0) :: rest) k d = (k0, d0) :: storeKey rest k d by
          simp [storeKey, h0]]
      rw [lookupKey_cons, lookupKey_cons, ih]

/-- Storing a key that is already present leaves the key list unchanged. -/
theorem keys_storeKey_of_mem (m : SecretsMap) (k : String) (d : KeyData)
    (h : (lookupKey m k).isSome) :
    get_all_keys (storeKey m k d) = get_all_keys m := by
  induction m with
  | nil => simp [lookupKey] at h
  | cons p rest ih =>
    obtain ⟨k', d'⟩ := p
    by_cases hk : k' = k
    · simp [storeKey, hk, get_all_keys]
    · rw [lookupKey_cons, if_neg hk] at h
      simp [storeKey, hk, get_all_keys] at ih ⊢
      exact ih h

/-- Storing an absent key appends it to the key list. -/
theorem keys_storeKey_of_none (m : SecretsMap) (k : String) (d : KeyData)
    (h : lookupKey m k = none) :
    get_all_keys (storeKey m k d) = get_all_keys m ++ [k] := by
  induction m with
  | nil => simp [storeKey, get_all_keys]
  | cons p rest ih =>
    obtain ⟨k', d'⟩ := p
    rw [lookupKey_cons] at h
    by_cases hk : k' = k
    · rw [if_pos hk] at h; cases h
    · rw [if_neg hk] at h
      simp [storeKey, hk, get_all_keys] at ih ⊢
      exact ih h

/-- Full evaluation of `add_version` on a key already present with record
`d`. -/
theorem add_version_eq_present (m : SecretsMap) (key : String) (ev : EncDict)
    (meta : Option Metadata) (now : String) (d : KeyData)
    (h : lookupKey m key = some d) :
    add_version m key ev meta now =
      (d.current_version + 1,
       storeKey m key
         ⟨d.versions ++ [⟨d.current_version + 1, ev, now, meta.getD []⟩],
          d.current_version + 1⟩) := by
  simp [add_version, h]

/-- Full evaluation of `add_version` on an absent key: the fresh record gets
`current_version = 0`, so the first version is numbered 1. -/
theorem add_version_eq_absent (m : SecretsMap) (key : String) (ev : EncDict)
    (meta : Option Metadata) (now : String)
    (h : lookupKey m key = none) :
    add_version m key ev meta now =
      (1, storeKey (storeKey m key ⟨[], 0⟩) key
            ⟨[⟨1, ev, now, meta.getD []⟩], 1⟩) := by
  simp [add_version, h, lookup_storeKey_self]

/-! ## Claims about set/get and versioning -/

/-- C3: for every key `k`, value `val`, and vault whose master key has
length 32, `set(k, val)` succeeds, a following `get(k)` returns `val`, and
the version number returned by `set` is the key's previous
`current_version + 1`, or 1 when `k` was absent. -/
theorem C3_set_then_get (v : Vault) (k : String) (val : Bytes)
    (meta : Option Metadata) (now : String)
    (hK : v.master_key.length = KEY_SIZE) :
    ∃ (n : Nat) (v' : Vault),
      Vault.set v k val meta now = Except.ok (n, v') ∧
      Vault.get v' k none = Except.ok val ∧
      n = (match lookupKey v.secrets k with
           | some d => d.current_version + 1
           | none => 1) := by
  have henc := encrypt_eq val v.master_key v.ctr hK
  cases h : lookupKey v.secrets k with
  | some d =>
    have hadd := add_version_eq_present v.secrets k (encBlob v.master_key v.ctr val)
      meta now d h
    refine ⟨d.current_version + 1,
      ⟨v.master_key,
       storeKey v.secrets k
         ⟨d.versions ++ [⟨d.current_version + 1, encBlob v.master_key v.ctr val,
            now, meta.getD []⟩], d.current_version + 1⟩,
       v.ctr + 1⟩, ?_, ?_, ?_⟩
    · simp only [Vault.set, henc, hadd]
    · simp only [Vault.get, get_version, lookup_storeKey_self]
      rw [if_neg (by simp), List.getLast?_concat]
      simp [decrypt_encBlob val v.master_key v.ctr hK]
    · rfl
  | none =>
    have hadd := add_version_eq_absent v.secrets k (encBlob v.master_key v.ctr val)
      meta now h
    refine ⟨1,
      ⟨v.master_key,
       storeKey (storeKey v.secrets k ⟨[], 0⟩) k
         ⟨[⟨1, encBlob v.master_key v.ctr val, now, meta.getD []⟩], 1⟩,
       v.ctr + 1⟩, ?_, ?_, ?_⟩
    · simp only [Vault.set, henc, hadd]
    · simp only [Vault.get, get_version, lookup_storeKey_self]
      rw [if_neg (by simp)]
      simp [decrypt_encBlob val v.master_key v.ctr hK]
    · rfl

/-- Witness for C3 at a fresh vault under the all-zero key, key name
`"DB"`, value `[9]`. -/
theorem C3_witness :
    (Vault.fresh key32).master_key.length = KEY_SIZE ∧
    ∃ (n : Nat) (v' : Vault),
      Vault.set (Vault.fresh key32) "DB" [9] none "t" = Except.ok (n, v') ∧
      Vault.get v' "DB" none = Except.ok [9] ∧
      n = (match lookupKey (Vault.fresh key32).secrets "DB" with
           | some d => d.current_version + 1
           | none => 1) :=
  ⟨by decide, C3_set_then_get (Vault.fresh key32) "DB" [9] none "t" (by decide)⟩

/-- C10: the empty string is accepted as a secret name: on a fresh vault
(32-byte master key), `set("", val)` succeeds and returns version 1,
`get("")` returns `val`, and `""` is listed by `list_keys()`. -/
theorem C10_empty_key_name (val K : Bytes) (now : String)
    (hK : K.length = KEY_SIZE) :
    ∃ v' : Vault,
      Vault.set (Vault.fresh K) "" val none now = Except.ok (1, v') ∧
      Vault.get v' "" none = Except.ok val ∧
      Vault.list_keys v' = [""] := by
  have henc := encrypt_eq val K 0 hK
  have hadd := add_version_eq_absent [] "" (encBlob K 0 val) none now rfl
  refine ⟨⟨K,
    storeKey (storeKey [] "" ⟨[], 0⟩) "" ⟨[⟨1, encBlob K 0 val, now, []⟩], 1⟩,
    1⟩, ?_, ?_, ?_⟩
  · simp only [Vault.set, Vault.fresh, henc, hadd]
    rfl
  · simp only [Vault.get, get_version, lookup_storeKey_self]
    rw [if_neg (by simp)]
    simp [decrypt_encBlob val K 0 hK]
  · have h1 : (lookupKey (storeKey [] "" ⟨[], 0⟩) "").isSome := by
      rw [lookup_storeKey_self]; rfl
    simp only [Vault.list_keys]
    rw [keys_storeKey_of_mem _ _ _ h1,
      keys_storeKey_of_none [] "" ⟨[], 0⟩ rfl]
    rfl

/-- Witness for C10 at the all-zero key and value `[3]`. -/
theorem C10_witness :
    key32.length = KEY_SIZE ∧
    ∃ v' : Vault,
      Vault.set (Vault.fresh key32) "" [3] none "t" = Except.ok (1, v') ∧
      Vault.get v' "" none = Except.ok [3] ∧
      Vault.list_keys v' = [""] :=
  ⟨by decide, C10_empty_key_name [3] key32 "t" (by decide)⟩

/-- A key that resolves in the map is among `get_all_keys`. -/
theorem mem_keys_of_lookup (m : SecretsMap) (k : String) (d : KeyData)
    (h : lookupKey m k = some d) : k ∈ get_all_keys m := by
  induction m with
  | nil => cases h
  | cons p rest ih =>
    obtain ⟨k', d'⟩ := p
    rw [lookupKey_cons] at h
    by_cases hk : k' = k
    · rw [hk]; exact List.mem_cons_self _ _
    · rw [if_neg hk] at h
      exact List.mem_cons_of_mem _ (ih h)

/-- C5 as stated is false: `delete_version` never removes the key entry.
Deleting the only version of `"k"` succeeds, yet `"k"` still appears in
`get_all_keys()`, now with an empty versions list. -/
theorem C5_counterexample :
    (delete_version
        [("k", ⟨[⟨1, ⟨some (B64.valid [1]), some (B64.valid [2])⟩, "t", []⟩], 1⟩)]
        "k" 1).1 = true ∧
    get_all_keys (delete_version
        [("k", ⟨[⟨1, ⟨some (B64.valid [1]), some (B64.valid [2])⟩, "t", []⟩], 1⟩)]
        "k" 1).2 = ["k"] ∧
    lookupKey (delete_version
        [("k", ⟨[⟨1, ⟨some (B64.valid [1]), some (B64.valid [2])⟩, "t", []⟩], 1⟩)]
        "k" 1).2 "k" = some ⟨[], 1⟩ := by decide

/-- C5 (amended): deleting the only version (numbered `n`) of key `k`
returns true but leaves the key entry in the document with an empty
versions list; `k` still appears in `get_all_keys()` and every subsequent
`get_version(k, _)` returns `None`. -/
theorem C5_amended_delete_last (m : SecretsMap) (k : String) (n : Nat)
    (d : KeyData) (sv : SecretVersion)
    (hd : lookupKey m k = some d)
    (hv : d.versions = [sv]) (hn : sv.version = n) :
    (delete_version m k n).1 = true ∧
    lookupKey (delete_version m k n).2 k = some ⟨[], d.current_version⟩ ∧
    k ∈ get_all_keys (delete_version m k n).2 ∧
    (∀ over : Option Nat, get_version (delete_version m k n).2 k over = none) := by
  have hfilter : d.versions.filter (fun v => v.version ≠ n) = [] := by
    rw [hv]
    simp [hn]
  simp only [delete_version, hd, hfilter]
  refine ⟨by rw [hv]; rfl, lookup_storeKey_self _ _ _, ?_, ?_⟩
  · rw [keys_storeKey_of_mem _ _ _ (by rw [hd]; rfl)]
    exact mem_keys_of_lookup m k d hd
  · intro over
    simp only [get_version, lookup_storeKey_self]
    rfl

/-- Witness for the amended C5 at a concrete one-version key. -/
theorem C5_amended_witness :
    (delete_version
        [("w", ⟨[⟨4, ⟨none, none⟩, "t", []⟩], 4⟩)] "w" 4).1 = true ∧
    lookupKey (delete_version
        [("w", ⟨[⟨4, ⟨none, none⟩, "t", []⟩], 4⟩)] "w" 4).2 "w" = some ⟨[], 4⟩ ∧
    "w" ∈ get_all_keys (delete_version
        [("w", ⟨[⟨4, ⟨none, none⟩, "t", []⟩], 4⟩)] "w" 4).2 ∧
    (∀ over : Option Nat, get_version (delete_version
        [("w", ⟨[⟨4, ⟨none, none⟩, "t", []⟩], 4⟩)] "w" 4).2 "w" over = none) :=
  C5_amended_delete_last
    [("w", ⟨[⟨4, ⟨none, none⟩, "t", []⟩], 4⟩)] "w" 4
    ⟨[⟨4, ⟨none, none⟩, "t", []⟩], 4⟩ ⟨4, ⟨none, none⟩, "t", []⟩
    (by decide) rfl rfl

/-- C6: `current_version` is preserved verbatim by `delete_version` (never
decreased, never recomputed from the survivors), and the next `add_version`
on that key returns `current_version + 1` — strictly greater than every
version number ever assigned. -/
theorem C6_current_version_monotonic (m : SecretsMap) (k : String) (n : Nat)
    (d : KeyData) (hd : lookupKey m k = some d) :
    ∃ d', lookupKey (delete_version m k n).2 k = some d' ∧
      d'.current_version = d.current_version ∧
      ∀ (ev : EncDict) (meta : Option Metadata) (now : String),
        (add_version (delete_version m k n).2 k ev meta now).1 =
          d.current_version + 1 := by
  simp only [delete_version, hd]
  refine ⟨⟨d.versions.filter (fun v => v.version ≠ n), d.current_version⟩,
    lookup_storeKey_self _ _ _, rfl, ?_⟩
  intro ev meta now
  rw [add_version_eq_present _ _ _ _ _ _ (lookup_storeKey_self _ _ _)]

/-- Witness for C6: versions 1,2,3 exist with `current_version = 3`;
after deleting version 2 the next `add_version` returns 4, not 3. -/
theorem C6_witness :
    ∃ d', lookupKey (delete_version
        [("P", ⟨[⟨1, ⟨none, none⟩, "t1", []⟩, ⟨2, ⟨none, none⟩, "t2", []⟩,
                 ⟨3, ⟨none, none⟩, "t3", []⟩], 3⟩)] "P" 2).2 "P" = some d' ∧
      d'.current_version = 3 ∧
      ∀ (ev : EncDict) (meta : Option Metadata) (now : String),
        (add_version (delete_version
            [("P", ⟨[⟨1, ⟨none, none⟩, "t1", []⟩, ⟨2, ⟨none, none⟩, "t2", []⟩,
                     ⟨3, ⟨none, none⟩, "t3", []⟩], 3⟩)] "P" 2).2 "P" ev meta now).1
          = 4 :=
  C6_current_version_monotonic
    [("P", ⟨[⟨1, ⟨none, none⟩, "t1", []⟩, ⟨2, ⟨none, none⟩, "t2", []⟩,
             ⟨3, ⟨none, none⟩, "t3", []⟩], 3⟩)] "P" 2
    ⟨[⟨1, ⟨none, none⟩, "t1", []⟩, ⟨2, ⟨none, none⟩, "t2", []⟩,
      ⟨3, ⟨none, none⟩, "t3", []⟩], 3⟩ (by decide)

/-- C4 as stated is false: `Vault.get` catches every exception other than
`SecretNotFoundError` and wraps it, so an AEAD tag failure surfaces as the
`VaultError` wrapper, not as a bare pass-through `AuthenticationError`. -/
theorem C4_counterexample :
    Vault.get mismatchedVault "s" none =
      Except.error (VaultExc.vaultError CryptoError.authentication) ∧
    Vault.get mismatchedVault "s" none ≠
      Except.error VaultExc.authentication := by
  refine ⟨rfl, ?_⟩
  intro hcontra
  rw [show Vault.get mismatchedVault "s" none =
      Except.error (VaultExc.vaultError CryptoError.authentication) from rfl]
    at hcontra
  exact absurd (Except.error.inj hcontra) (by decide)

/-- C4 (amended): when `get` fails because AEAD tag verification fails, the
failure is re-raised wrapped as a `VaultError` (as §4.5 of the spec states);
only `SecretNotFoundError` passes through unchanged. -/
theorem C4_amended_auth_wrapped (v : Vault) (k : String) (over : Option Nat)
    (sv : SecretVersion)
    (h1 : get_version v.secrets k over = some sv)
    (h2 : CryptoEngine.decrypt sv.encrypted_value v.master_key =
      Except.error CryptoError.authentication) :
    Vault.get v k over =
      Except.error (VaultExc.vaultError CryptoError.authentication) := by
  simp only [Vault.get, h1, h2]

/-- Witness for the amended C4 at the concrete mismatched-key vault. -/
theorem C4_amended_witness :
    Vault.get mismatchedVault "s" none =
      Except.error (VaultExc.vaultError CryptoError.authentication) :=
  C4_amended_auth_wrapped mismatchedVault "s" none
    ⟨1, encBlob key32 0 [5], "t", []⟩ rfl rfl

/-! ## Claim C7: serialization round trip -/

/-- Mapping a function that fixes every element of a list is the
identity. -/
theorem map_id_of_forall {α : Type} (f : α → α) :
    ∀ l : List α, (∀ a ∈ l, f a = a) → l.map f = l := by
  intro l
  induction l with
  | nil => intro _; rfl
  | cons a t ih =>
    intro h
    simp only [List.map_cons]
    rw [h a (List.mem_cons_self _ _), ih (fun b hb => h b (List.mem_cons_of_mem _ hb))]

/-- One version dictionary survives `from_dict` then `to_dict` verbatim when
its timestamp is present and non-empty and its metadata is present. -/
theorem to_dict_from_dict_version (now : String) (vd : VersionDict)
    (h1 : vd.timestamp ≠ none) (h2 : vd.timestamp ≠ some "")
    (h3 : vd.metadata ≠ none) :
    SecretVersion.to_dict (SecretVersion.from_dict now vd) = vd := by
  obtain ⟨ver, ev, ts, md⟩ := vd
  cases ts with
  | none => exact absurd rfl h1
  | some t =>
    cases md with
    | none => exact absurd rfl h3
    | some mdata =>
      have ht : ¬ t = "" := by
        intro he
        exact h2 (by rw [he])
      simp only [SecretVersion.from_dict, SecretVersion.to_dict, Option.getD_some]
      rw [if_neg ht]

/-- C7: on every valid `VaultDocument`, `from_dict` followed by `to_dict`
is the identity — `current_version` is preserved verbatim, version order is
preserved, and timestamps and metadata are preserved unchanged. -/
theorem C7_roundtrip_identity (doc : VaultDocument) (now : String)
    (hv : ValidDoc doc) :
    VersionManager.to_dict (VersionManager.from_dict now doc) = doc := by
  induction doc with
  | nil => rfl
  | cons p rest ih =>
    obtain ⟨k, kd⟩ := p
    have hrest : ValidDoc rest := fun q hq => hv q (List.mem_cons_of_mem _ hq)
    have hhead := hv (k, kd) (List.mem_cons_self _ _)
    simp only [VersionManager.from_dict, VersionManager.to_dict, List.map_cons]
      at ih ⊢
    rw [ih hrest]
    rw [List.map_map]
    rw [map_id_of_forall (SecretVersion.to_dict ∘ SecretVersion.from_dict now)
      kd.versions
      (fun vd hvd => to_dict_from_dict_version now vd
        (hhead vd hvd).1 (hhead vd hvd).2.1 (hhead vd hvd).2.2)]

/-- Witness for C7 at a one-key, one-version document with explicit
timestamp and metadata. -/
theorem C7_witness :
    ValidDoc [("k", ⟨[⟨1, ⟨some (B64.valid [1]), some (B64.valid [2])⟩,
        some ("ts"), some [(("a"), ("b"))]⟩], 5⟩)] ∧
    VersionManager.to_dict (VersionManager.from_dict ("now")
        [("k", ⟨[⟨1, ⟨some (B64.valid [1]), some (B64.valid [2])⟩,
            some ("ts"), some [(("a"), ("b"))]⟩], 5⟩)]) =
      [("k", ⟨[⟨1, ⟨some (B64.valid [1]), some (B64.valid [2])⟩,
          some ("ts"), some [(("a"), ("b"))]⟩], 5⟩)] :=
  ⟨by unfold ValidDoc; decide,
   C7_roundtrip_identity
     [("k", ⟨[⟨1, ⟨some (B64.valid [1]), some (B64.valid [2])⟩,
         some ("ts"), some [(("a"), ("b"))]⟩], 5⟩)] ("now")
     (by unfold ValidDoc; decide)⟩

/-! ## Claim C1: rotation is not all-or-nothing in the code -/

/-- C1 (the code evaluated at the failing input): rotating `halfRotten` —
where version 1 of key `"a"` cannot be decrypted under the live key while
version 2 can — raises nothing (`rotate_key` swallows the failure and the
facade records success), swaps the master key, and leaves a half-rotated
document: version 1's blob is untouched (still undecryptable under the new
key) while version 2's blob is now under the new key (no longer decryptable
under the old one).  This contradicts the all-or-nothing rotation the spec
demands; the spec itself flags the source behaviour as a bug. -/
theorem C1_rotation_not_atomic :
    (Vault.rotate halfRotten key32b).master_key = key32b ∧
    (Vault.rotate halfRotten key32b).secrets =
      [("a", ⟨[⟨1, ⟨some (B64.invalid 3), some (B64.valid [0])⟩, "t1", []⟩,
               ⟨2, encBlob key32b 7 [9], "t2", []⟩], 2⟩)] ∧
    CryptoEngine.decrypt (encBlob key32b 7 [9]) key32 =
      Except.error CryptoError.authentication ∧
    CryptoEngine.decrypt ⟨some (B64.invalid 3), some (B64.valid [0])⟩ key32b =
      Except.error CryptoError.malformedBlob :=
  ⟨rfl, rfl, rfl, rfl⟩

/-! ## Claim C2: rotation invariance -/

/-- One loop body of `rotate_key` on a blob that decrypts under the old key:
it is replaced by a fresh encryption under the new key and the RNG counter
advances by one. -/
theorem rotateBlob_ok (K Kn : Bytes) (hKn : Kn.length = KEY_SIZE) (ctr : Nat)
    (ev : EncDict) (pt : Bytes)
    (hdec : CryptoEngine.decrypt ev K = Except.ok pt) :
    rotateBlob K Kn ctr ev = (encBlob Kn ctr pt, ctr + 1) := by
  simp only [rotateBlob, hdec, encrypt_eq pt Kn ctr hKn]

/-- A re-encrypted blob differs from the stored one in both fields, because
the fresh nonce postdates every nonce stored in the vault. -/
theorem rotated_blob_new (K Kn : Bytes) (ctr0 ctr : Nat) (hle : ctr0 ≤ ctr)
    (ev : EncDict) (pt : Bytes)
    (hdec : CryptoEngine.decrypt ev K = Except.ok pt)
    (hn : ∀ n, ev.nonce = some (B64.valid n) →
      ∃ i, i < ctr0 ∧ n = freshNonce i) :
    (encBlob Kn ctr pt).ciphertext ≠ ev.ciphertext ∧
    (encBlob Kn ctr pt).nonce ≠ ev.nonce := by
  obtain ⟨hKlen, n0, hev⟩ := decrypt_ok_inv hdec
  obtain ⟨i, hi, hn0⟩ := hn n0 (by rw [hev])
  subst hn0
  have hne : freshNonce ctr ≠ freshNonce i := by
    intro h
    have : ctr = i := (List.cons.inj h).1
    omega
  rw [hev]
  constructor
  · intro h
    simp only [encBlob, Option.some.injEq, B64.valid.injEq] at h
    exact hne (aesgcmEncrypt_inj h).2.1
  · intro h
    simp only [encBlob, Option.some.injEq, B64.valid.injEq] at h
    exact hne h

/-- The inner loop of `rotate_key` over one key's version list: when every
version decrypts under the old key and every stored nonce predates `ctr0`,
the counter never decreases and the output corresponds pointwise to the
input by `RotatedVersion`. -/
theorem rotateVersions_spec (K Kn : Bytes) (hKn : Kn.length = KEY_SIZE)
    (ctr0 : Nat) (vs : List SecretVersion) :
    ∀ ctr, ctr0 ≤ ctr →
    (∀ sv ∈ vs, ∃ pt, CryptoEngine.decrypt sv.encrypted_value K = Except.ok pt) →
    (∀ sv ∈ vs, ∀ n, sv.encrypted_value.nonce = some (B64.valid n) →
      ∃ i, i < ctr0 ∧ n = freshNonce i) →
    ctr ≤ (rotateVersions K Kn ctr vs).2 ∧
    List.Forall₂ (RotatedVersion K Kn) vs (rotateVersions K Kn ctr vs).1 := by
  induction vs with
  | nil =>
    intro ctr hle hdec hn
    exact ⟨Nat.le_refl _, List.Forall₂.nil⟩
  | cons v vs ih =>
    intro ctr hle hdec hn
    obtain ⟨pt, hpt⟩ := hdec v (List.mem_cons_self _ _)
    have hrb := rotateBlob_ok K Kn hKn ctr v.encrypted_value pt hpt
    obtain ⟨hle2, hf2⟩ := ih (ctr + 1) (Nat.le_succ_of_le hle)
      (fun sv hsv => hdec sv (List.mem_cons_of_mem _ hsv))
      (fun sv hsv => hn sv (List.mem_cons_of_mem _ hsv))
    have heq : rotateVersions K Kn ctr (v :: vs) =
        (⟨v.version, encBlob Kn ctr pt, v.timestamp, v.metadata⟩ ::
          (rotateVersions K Kn (ctr + 1) vs).1,
         (rotateVersions K Kn (ctr + 1) vs).2) := by
      simp only [rotateVersions, hrb]
    rw [heq]
    refine ⟨Nat.le_trans (Nat.le_succ _) hle2, List.Forall₂.cons ?_ hf2⟩
    exact ⟨rfl, rfl, rfl, ⟨pt, hpt, decrypt_encBlob pt Kn ctr hKn⟩,
      rotated_blob_new K Kn ctr0 ctr hle v.encrypted_value pt hpt
        (hn v (List.mem_cons_self _ _))⟩

/-- The outer loop of `rotate_key`: under the same hypotheses the whole map
corresponds pointwise to the input by `RotatedKey`. -/
theorem rotate_key_spec (K Kn : Bytes) (hKn : Kn.length = KEY_SIZE)
    (ctr0 : Nat) (m : SecretsMap) :
    ∀ ctr, ctr0 ≤ ctr → DecryptsAll K m → NoncesBefore ctr0 m →
    ctr ≤ (rotate_key K Kn ctr m).2 ∧
    List.Forall₂ (RotatedKey K Kn) m (rotate_key K Kn ctr m).1 := by
  induction m with
  | nil =>
    intro ctr hle hdec hn
    exact ⟨Nat.le_refl _, List.Forall₂.nil⟩
  | cons p rest ih =>
    intro ctr hle hdec hn
    obtain ⟨k, d⟩ := p
    obtain ⟨hle1, hf1⟩ := rotateVersions_spec K Kn hKn ctr0 d.versions ctr hle
      (fun sv hsv => hdec (k, d) (List.mem_cons_self _ _) sv hsv)
      (fun sv hsv => hn (k, d) (List.mem_cons_self _ _) sv hsv)
    obtain ⟨hle2, hf2⟩ := ih (rotateVersions K Kn ctr d.versions).2
      (Nat.le_trans hle hle1)
      (fun q hq => hdec q (List.mem_cons_of_mem _ hq))
      (fun q hq => hn q (List.mem_cons_of_mem _ hq))
    have heq : rotate_key K Kn ctr ((k, d) :: rest) =
        ((k, ⟨(rotateVersions K Kn ctr d.versions).1, d.current_version⟩) ::
          (rotate_key K Kn (rotateVersions K Kn ctr d.versions).2 rest).1,
         (rotate_key K Kn (rotateVersions K Kn ctr d.versions).2 rest).2) := by
      simp only [rotate_key]
    rw [heq]
    exact ⟨Nat.le_trans hle1 hle2, List.Forall₂.cons ⟨rfl, rfl, hf1⟩ hf2⟩

/-- Cons step of `lookupKey` phrased on a pair variable. -/
theorem lookupKey_cons_pair (p : String × KeyData) (m : SecretsMap) (k : String) :
    lookupKey (p :: m) k = if p.1 = k then some p.2 else lookupKey m k := by
  obtain ⟨a, b⟩ := p
  exact lookupKey_cons a b m k

/-- Transporting a lookup through a `RotatedKey` correspondence. -/
theorem lookup_rotated {K Kn : Bytes} {m m' : SecretsMap}
    (h : List.Forall₂ (RotatedKey K Kn) m m') (k : String) :
    (lookupKey m k = none ∧ lookupKey m' k = none) ∨
    (∃ d d', lookupKey m k = some d ∧ lookupKey m' k = some d' ∧
      d'.current_version = d.current_version ∧
      List.Forall₂ (RotatedVersion K Kn) d.versions d'.versions) := by
  induction h with
  | nil => exact Or.inl ⟨rfl, rfl⟩
  | @cons p q l l' hpq hrest ih =>
    obtain ⟨hq1, hq2, hq3⟩ := hpq
    rw [lookupKey_cons_pair p l k, lookupKey_cons_pair q l' k]
    by_cases hk : p.1 = k
    · rw [if_pos hk, if_pos (by rw [hq1]; exact hk)]
      exact Or.inr ⟨p.2, q.2, rfl, rfl, hq2, hq3⟩
    · rw [if_neg hk, if_neg (by rw [hq1]; exact hk)]
      exact ih

/-- Transporting a version-number search through a `RotatedVersion`
correspondence: both searches fail, or both find corresponding versions. -/
theorem forall2_find_version {K Kn : Bytes} {vs vs' : List SecretVersion}
    (h : List.Forall₂ (RotatedVersion K Kn) vs vs') (n : Nat) :
    (vs.find? (fun v => v.version = n) = none ∧
     vs'.find? (fun v => v.version = n) = none) ∨
    (∃ a b, vs.find? (fun v => v.version = n) = some a ∧
      vs'.find? (fun v => v.version = n) = some b ∧
      RotatedVersion K Kn a b) := by
  induction h with
  | nil => exact Or.inl ⟨rfl, rfl⟩
  | @cons a b l l' hab hrest ih =>
    have hv : b.version = a.version := hab.1
    by_cases hvn : a.version = n
    · rw [List.find?_cons_of_pos _ (by simp [hvn]),
        List.find?_cons_of_pos _ (by simp [hv, hvn])]
      exact Or.inr ⟨a, b, rfl, rfl, hab⟩
    · rw [List.find?_cons_of_neg _ (by simp [hvn]),
        List.find?_cons_of_neg _ (by simp [hv, hvn])]
      exact ih

/-- Transporting `getLast?` through any pointwise correspondence. -/
theorem forall2_getLast {r : SecretVersion → SecretVersion → Prop}
    {l l' : List SecretVersion} (h : List.Forall₂ r l l') :
    (l.getLast? = none ∧ l'.getLast? = none) ∨
    (∃ a b, l.getLast? = some a ∧ l'.getLast? = some b ∧ r a b) := by
  induction h with
  | nil => exact Or.inl ⟨rfl, rfl⟩
  | @cons a b l l' hab hrest ih =>
    cases hrest with
    | nil => exact Or.inr ⟨a, b, rfl, rfl, hab⟩
    | @cons a2 b2 t t' hab2 hrest2 =>
      rcases ih with ⟨h1, h2⟩ | ⟨x, y, hx, hy, hxy⟩
      · exact absurd h1 (by simp)
      · rw [List.getLast?_cons_cons, List.getLast?_cons_cons]
        exact Or.inr ⟨x, y, hx, hy, hxy⟩

/-- C2: for every vault state in which every stored version decrypts under
the live master key and every stored nonce predates the RNG counter, and
every fresh 32-byte key `Kn`, `rotate(Kn)` preserves every
`(key, version, plaintext)` triple exactly — afterwards `get(k, ver)` under
the new key returns exactly what it returned before under the old key —
while every version receives a new ciphertext and a new nonce (the
`RotatedKey` correspondence). -/
theorem C2_rotation_invariance (v : Vault) (Kn : Bytes)
    (hKn : Kn.length = KEY_SIZE)
    (hdec : DecryptsAll v.master_key v.secrets)
    (hn : NoncesBefore v.ctr v.secrets) :
    (∀ (k : String) (over : Option Nat),
      Vault.get (Vault.rotate v Kn) k over = Vault.get v k over) ∧
    List.Forall₂ (RotatedKey v.master_key Kn) v.secrets
      (Vault.rotate v Kn).secrets := by
  obtain ⟨hle, hf⟩ := rotate_key_spec v.master_key Kn hKn v.ctr v.secrets v.ctr
    (Nat.le_refl _) hdec hn
  have hsec : (Vault.rotate v Kn).secrets =
      (rotate_key v.master_key Kn v.ctr v.secrets).1 := rfl
  have hmk : (Vault.rotate v Kn).master_key = Kn := rfl
  have hf' : List.Forall₂ (RotatedKey v.master_key Kn) v.secrets
      (Vault.rotate v Kn).secrets := by rw [hsec]; exact hf
  refine ⟨?_, hf'⟩
  intro k over
  rcases lookup_rotated hf' k with ⟨h1, h2⟩ | ⟨d, d', hd, hd', hcv, hfv⟩
  · simp [Vault.get, get_version, h1, h2]
  · have hlen := List.Forall₂.length_eq hfv
    by_cases hemp : d.versions = []
    · have hemp' : d'.versions = [] := by
        rw [hemp] at hlen
        exact List.length_eq_zero.mp hlen.symm
      simp [Vault.get, get_version, hd, hd', hemp, hemp']
    · have hemp' : ¬ d'.versions = [] := by
        intro he
        rw [he] at hlen
        exact hemp (List.length_eq_zero.mp hlen)
      cases over with
      | none =>
        rcases forall2_getLast hfv with ⟨hg1, hg2⟩ | ⟨a, b, ha, hb, hab⟩
        · simp [Vault.get, get_version, hd, hd', hemp, hemp', hg1, hg2]
        · obtain ⟨-, -, -, ⟨pt, hpta, hptb⟩, -⟩ := hab
          simp [Vault.get, get_version, hd, hd', hemp, hemp', ha, hb,
            hmk, hpta, hptb]
      | some n =>
        rcases forall2_find_version hfv n with ⟨hg1, hg2⟩ | ⟨a, b, ha, hb, hab⟩
        · simp [Vault.get, get_version, hd, hd', hemp, hemp', hg1, hg2]
        · obtain ⟨-, -, -, ⟨pt, hpta, hptb⟩, -⟩ := hab
          simp [Vault.get, get_version, hd, hd', hemp, hemp', ha, hb,
            hmk, hpta, hptb]

/-- Witness for C2 at a concrete one-secret vault rotated from the all-zero
key to the all-one key. -/
theorem C2_witness :
    (∀ (k : String) (over : Option Nat),
      Vault.get (Vault.rotate
        ⟨key32, [("s", ⟨[⟨1, encBlob key32 0 [5], "t", []⟩], 1⟩)], 1⟩
        key32b) k over =
      Vault.get
        ⟨key32, [("s", ⟨[⟨1, encBlob key32 0 [5], "t", []⟩], 1⟩)], 1⟩
        k over) ∧
    List.Forall₂ (RotatedKey key32 key32b)
      [("s", ⟨[⟨1, encBlob key32 0 [5], "t", []⟩], 1⟩)]
      (Vault.rotate
        ⟨key32, [("s", ⟨[⟨1, encBlob key32 0 [5], "t", []⟩], 1⟩)], 1⟩
        key32b).secrets :=
  C2_rotation_invariance
    ⟨key32, [("s", ⟨[⟨1, encBlob key32 0 [5], "t", []⟩], 1⟩)], 1⟩ key32b
    (by decide)
    (by
      intro p hp sv hsv
      simp only [List.mem_singleton] at hp
      subst hp
      simp at hsv
      subst hsv
      exact ⟨[5], decrypt_encBlob [5] key32 0 (by decide)⟩)
    (by
      intro p hp sv hsv n hne
      simp only [List.mem_singleton] at hp
      subst hp
      simp at hsv
      subst hsv
      have h0 : B64.valid (freshNonce 0) = B64.valid n := Option.some.inj hne
      exact ⟨0, Nat.zero_lt_one, (B64.valid.inj h0).symm⟩)
